import Mathlib

set_option linter.unusedSectionVars false

/-!
Verification of the RingMaster SPSC ring buffer (src/RingMaster.hh).

The ring state is the pair of size_t cursors `head_` / `tail_` together with
the `Capacity`-slot storage array `buffer_`.  size_t arithmetic is modelled
as natural-number arithmetic modulo `W = 2 ^ 64`; every cursor value stored
in a state is kept below `W`, exactly as a 64-bit unsigned integer is.
Operations are translated one-to-one from the source: `push`, `pop`,
`remove`, `clear`, `isEmpty`, `isFull`, `size`, and the adaptive wait layer
`push_wait` / `pop_wait` (the latter modelled against an explicit schedule
of observed ring states, one per attempt, which stands for the interleaved
actions of the opposite thread).
-/

namespace RingMaster

/-- Modulus of C++ `size_t` arithmetic: `2 ^ 64`. -/
def W : Nat := 18446744073709551616

/-- Wrapping `size_t` subtraction: for `a, b < W` this is the value of the
C++ expression `a - b` on unsigned 64-bit operands. -/
def wsub (a b : Nat) : Nat := (a + W - b) % W

/-- State of `RingMaster<Q_TYPE, Capacity>`: the producer cursor `head_`,
the consumer cursor `tail_` (both `size_t`, hence always below `W` in any
state the operations produce), and the `Capacity`-slot storage `buffer_`. -/
structure Ring (α : Type) (C : Nat) where
  head : Nat
  tail : Nat
  buffer : Fin C → α

/-- The slot index `x & Mask` with `Mask = Capacity - 1`
(RingMaster.hh line 63); it is below `Capacity` because a bitwise `and`
never exceeds its right operand. -/
def idx (C : Nat) [NeZero C] (x : Nat) : Fin C :=
  ⟨x &&& (C - 1),
    lt_of_le_of_lt Nat.and_le_right (Nat.sub_lt (Nat.pos_of_neZero C) Nat.one_pos)⟩

variable {α : Type} {C : Nat} [NeZero C]

/-- Source operation `RingMaster::push` (RingMaster.hh lines 134-147): load `head_` and
`tail_`; if `head - tail >= Capacity` the buffer is full and nothing
changes; otherwise store the value at `buffer_[head & Mask]` and publish
`head + 1`. -/
def push (s : Ring α C) (v : α) : Bool × Ring α C :=
  let head := s.head
  let tail := s.tail
  if C ≤ wsub head tail then
    (false, s)
  else
    (true,
      { s with
        buffer := fun j => if j = idx C head then v else s.buffer j
        head := (head + 1) % W })

/-- Source operation `RingMaster::pop` (RingMaster.hh lines 157-170): load `tail_` and
`head_`; if they are equal the buffer is empty and nothing changes;
otherwise move `buffer_[tail & Mask]` into `out` and publish `tail + 1`. -/
def pop (s : Ring α C) (out : α) : Bool × α × Ring α C :=
  let tail := s.tail
  let head := s.head
  if head = tail then
    (false, out, s)
  else
    (true, s.buffer (idx C tail), { s with tail := (tail + 1) % W })

/-- Source operation `RingMaster::remove` (RingMaster.hh lines 180-190): compute
`avail = head - tail`, remove `toRemove = (n > avail) ? avail : n`
elements by storing `tail + toRemove`, touching no slot; the store is
skipped when `toRemove` is zero. -/
def remove (s : Ring α C) (n : Nat) : Nat × Ring α C :=
  let tail := s.tail
  let head := s.head
  let avail := wsub head tail
  let toRemove := if avail < n then avail else n
  if toRemove ≠ 0 then
    (toRemove, { s with tail := (tail + toRemove) % W })
  else
    (toRemove, s)

/-- Source operation `RingMaster::clear` (RingMaster.hh lines 199-202): store zero into both
cursors; the storage array is not written. -/
def clear (s : Ring α C) : Ring α C :=
  { s with head := 0, tail := 0 }

/-- Source operation `RingMaster::isEmpty` (RingMaster.hh lines 212-216). -/
def isEmpty (s : Ring α C) : Bool :=
  decide (s.head = s.tail)

/-- Source operation `RingMaster::isFull` (RingMaster.hh lines 225-229): `head - tail >= Capacity`. -/
def isFull (s : Ring α C) : Bool :=
  decide (C ≤ wsub s.head s.tail)

/-- Source operation `RingMaster::size` (RingMaster.hh lines 239-243): `head - tail`. -/
def size (s : Ring α C) : Nat :=
  wsub s.head s.tail

/-- The logical contents of the ring, oldest first: the `i`-th live element
counted from the consumer side sits in slot `(tail + i) & Mask`. -/
def toList (s : Ring α C) : List α :=
  (List.range (size s)).map fun i => s.buffer (idx C (s.tail + i))

/-- States reachable from the freshly constructed buffer (`head_ = tail_ = 0`,
arbitrary storage contents) by `push`, `pop`, `remove` and `clear`. -/
inductive Reachable : Ring α C → Prop where
  | init (b : Fin C → α) : Reachable ⟨0, 0, b⟩
  | step_push (s : Ring α C) (v : α) : Reachable s → Reachable (RingMaster.push s v).2
  | step_pop (s : Ring α C) (o : α) : Reachable s → Reachable (RingMaster.pop s o).2.2
  | step_remove (s : Ring α C) (n : Nat) : Reachable s → Reachable (RingMaster.remove s n).2
  | step_clear (s : Ring α C) : Reachable s → Reachable (RingMaster.clear s)

/-- Well-formedness of a ring state: the cursors are genuine `size_t`
values and at most `Capacity` elements are live. -/
def Inv (s : Ring α C) : Prop :=
  s.head < W ∧ s.tail < W ∧ size s ≤ C

theorem wsub_lt_W (a b : Nat) : wsub a b < W := by
  simp only [wsub, W]; omega

theorem wsub_self (a : Nat) : wsub a a = 0 := by
  simp only [wsub, W]; omega

theorem wsub_eq_zero_iff {a b : Nat} (ha : a < W) (hb : b < W) :
    wsub a b = 0 ↔ a = b := by
  simp only [wsub, W] at *; omega

theorem wsub_add_right {a b k : Nat} (hb : b < W) (hk : k ≤ wsub a b) :
    wsub a ((b + k) % W) = wsub a b - k := by
  simp only [wsub, W] at *; omega

theorem wsub_succ_mod {a b : Nat} (ha : a < W) (hb : b < W) :
    wsub ((a + 1) % W) b = (wsub a b + 1) % W := by
  simp only [wsub, W] at *; omega

theorem push_full {s : Ring α C} (v : α) (hf : C ≤ wsub s.head s.tail) :
    push s v = (false, s) := by
  simp [push, hf]

theorem push_ok {s : Ring α C} (v : α) (hf : ¬ C ≤ wsub s.head s.tail) :
    push s v = (true,
      { s with
        buffer := fun j => if j = idx C s.head then v else s.buffer j
        head := (s.head + 1) % W }) := by
  simp [push, hf]

theorem pop_empty {s : Ring α C} (o : α) (he : s.head = s.tail) :
    pop s o = (false, o, s) := by
  simp [pop, he]

theorem pop_ok {s : Ring α C} (o : α) (he : ¬ s.head = s.tail) :
    pop s o = (true, s.buffer (idx C s.tail), { s with tail := (s.tail + 1) % W }) := by
  simp [pop, he]

theorem remove_min (s : Ring α C) (n : Nat) :
    (if wsub s.head s.tail < n then wsub s.head s.tail else n) =
      min n (wsub s.head s.tail) := by
  split <;> omega

theorem remove_zero_case {s : Ring α C} {n : Nat}
    (h : min n (wsub s.head s.tail) = 0) : remove s n = (0, s) := by
  simp only [remove, remove_min]
  rw [if_neg (by simp [h]), h]

theorem remove_pos_case {s : Ring α C} {n : Nat}
    (h : min n (wsub s.head s.tail) ≠ 0) :
    remove s n = (min n (wsub s.head s.tail),
      { s with tail := (s.tail + min n (wsub s.head s.tail)) % W }) := by
  simp only [remove, remove_min]
  rw [if_pos h]

theorem inv_init (b : Fin C → α) : Inv (⟨0, 0, b⟩ : Ring α C) := by
  refine ⟨?_, ?_, ?_⟩
  · simp [W]
  · simp [W]
  · simp [size, wsub_self]

theorem inv_push (s : Ring α C) (v : α) (h : Inv s) : Inv (push s v).2 := by
  obtain ⟨h1, h2, h3⟩ := h
  by_cases hf : C ≤ wsub s.head s.tail
  · rw [push_full v hf]; exact ⟨h1, h2, h3⟩
  · rw [push_ok v hf]
    refine ⟨Nat.mod_lt _ (by simp [W]), h2, ?_⟩
    simp only [size] at *
    rw [wsub_succ_mod h1 h2]
    have := wsub_lt_W s.head s.tail
    simp only [W] at *
    omega

theorem inv_pop (s : Ring α C) (o : α) (h : Inv s) : Inv (pop s o).2.2 := by
  obtain ⟨h1, h2, h3⟩ := h
  by_cases he : s.head = s.tail
  · rw [pop_empty o he]; exact ⟨h1, h2, h3⟩
  · rw [pop_ok o he]
    refine ⟨h1, Nat.mod_lt _ (by simp [W]), ?_⟩
    simp only [size, wsub, W] at *
    omega

theorem inv_remove (s : Ring α C) (n : Nat) (h : Inv s) : Inv (remove s n).2 := by
  obtain ⟨h1, h2, h3⟩ := h
  by_cases hz : min n (wsub s.head s.tail) = 0
  · rw [remove_zero_case hz]; exact ⟨h1, h2, h3⟩
  · rw [remove_pos_case hz]
    refine ⟨h1, Nat.mod_lt _ (by simp [W]), ?_⟩
    simp only [size] at *
    rw [wsub_add_right h2 (Nat.min_le_right _ _)]
    omega

theorem inv_clear (s : Ring α C) : Inv (clear s) := by
  refine ⟨?_, ?_, ?_⟩
  · simp [clear, W]
  · simp [clear, W]
  · simp [clear, size, wsub_self]

theorem reachable_inv {s : Ring α C} (h : Reachable s) : Inv s := by
  induction h with
  | init b => exact inv_init b
  | step_push s v _ ih => exact inv_push s v ih
  | step_pop s o _ ih => exact inv_pop s o ih
  | step_remove s n _ ih => exact inv_remove s n ih
  | step_clear s _ _ => exact inv_clear s

theorem W_eq : W = 2 ^ 64 := by
  norm_num [W]

theorem idx_val {f : Nat} (hC : C = 2 ^ f) (x : Nat) : (idx C x).val = x % C := by
  subst hC; simp [idx]

theorem idx_eq_idx {f : Nat} (hC : C = 2 ^ f) {x y : Nat} (h : x % C = y % C) :
    idx C x = idx C y := by
  apply Fin.ext; rw [idx_val hC, idx_val hC, h]

theorem C_dvd_W {f : Nat} (hC : C = 2 ^ f) (he : f ≤ 64) : C ∣ W := by
  subst hC; rw [W_eq]; exact pow_dvd_pow 2 he

theorem C_lt_W {f : Nat} (hC : C = 2 ^ f) (he : f < 64) : C < W := by
  subst hC; rw [W_eq]; exact Nat.pow_lt_pow_right (by norm_num) he

theorem mod_W_add_mod_C {f : Nat} (hC : C = 2 ^ f) (he : f ≤ 64) (x i : Nat) :
    (x % W + i) % C = (x + i) % C :=
  ((Nat.mod_modEq x W).of_dvd (C_dvd_W hC he)).add_right i

theorem tail_add_size_mod {f : Nat} (hC : C = 2 ^ f) (he : f ≤ 64) (s : Ring α C)
    (h2 : s.tail < W) : (s.tail + size s) % C = s.head % C := by
  have hd := C_dvd_W hC he
  have hh1 : (s.tail + size s) % C = (s.tail + (s.head + W - s.tail)) % C :=
    ((Nat.mod_modEq (s.head + W - s.tail) W).of_dvd hd).add_left s.tail
  rw [hh1]
  have hh3 : s.tail + (s.head + W - s.tail) = s.head + W := by
    simp only [W] at *; omega
  rw [hh3]
  obtain ⟨m, hm⟩ := hd
  rw [hm, Nat.add_mul_mod_self_left]

theorem toList_length (s : Ring α C) : (toList s).length = size s := by
  simp [toList]

theorem toList_nil {s : Ring α C} (h : size s = 0) : toList s = [] := by
  simp [toList, h]

/-- A successful `push` appends the pushed value to the logical contents and
moves neither the consumer cursor nor any previously live slot. -/
theorem push_succ_toList {f : Nat} (hC : C = 2 ^ f) (he : f < 64) {s : Ring α C}
    (h1 : s.head < W) (h2 : s.tail < W) (hlt : wsub s.head s.tail < C) (v : α) :
    (push s v).1 = true ∧
    (push s v).2.tail = s.tail ∧
    size (push s v).2 = size s + 1 ∧
    toList (push s v).2 = toList s ++ [v] := by
  have hf : ¬ C ≤ wsub s.head s.tail := Nat.not_le.mpr hlt
  rw [push_ok v hf]
  have hCW := C_lt_W hC he
  have hsz : wsub ((s.head + 1) % W) s.tail = wsub s.head s.tail + 1 := by
    rw [wsub_succ_mod h1 h2]
    exact Nat.mod_eq_of_lt (by omega)
  refine ⟨rfl, rfl, hsz, ?_⟩
  simp only [toList, size, hsz]
  rw [List.range_succ, List.map_append]
  congr 1
  · apply List.map_congr_left
    intro i hi
    rw [List.mem_range] at hi
    have hne : idx C (s.tail + i) ≠ idx C s.head := by
      intro hcontra
      have hv : (s.tail + i) % C = s.head % C := by
        have := congrArg Fin.val hcontra
        rwa [idx_val hC, idx_val hC] at this
      rw [← tail_add_size_mod hC (Nat.le_of_lt he) s h2] at hv
      have hmod : i % C = size s % C :=
        Nat.ModEq.add_left_cancel' s.tail hv
      have hiC : i < C := lt_trans hi hlt
      have hsC : size s < C := hlt
      rw [Nat.mod_eq_of_lt hiC, Nat.mod_eq_of_lt hsC] at hmod
      simp only [size] at hmod
      omega
    simp [hne]
  · simp only [List.map_cons, List.map_nil, List.cons.injEq, and_true]
    have heq : idx C (s.tail + size s) = idx C s.head :=
      idx_eq_idx hC (tail_add_size_mod hC (Nat.le_of_lt he) s h2)
    simp only [size] at heq
    rw [heq]
    simp

/-- A successful `pop` removes and returns the head of the logical contents,
moving only the consumer cursor. -/
theorem pop_succ_toList {f : Nat} (hC : C = 2 ^ f) (he : f ≤ 64) {s : Ring α C}
    (h1 : s.head < W) (h2 : s.tail < W) (hne : s.head ≠ s.tail) (o : α) :
    (pop s o).1 = true ∧
    (pop s o).2.2.head = s.head ∧
    (pop s o).2.2.buffer = s.buffer ∧
    size (pop s o).2.2 = size s - 1 ∧
    toList s = (pop s o).2.1 :: toList (pop s o).2.2 := by
  rw [pop_ok o hne]
  have hpos : size s ≠ 0 := by
    simp only [size]
    exact fun h => hne ((wsub_eq_zero_iff h1 h2).mp h)
  have hsz : wsub s.head ((s.tail + 1) % W) = wsub s.head s.tail - 1 :=
    wsub_add_right h2 (Nat.one_le_iff_ne_zero.mpr hpos)
  refine ⟨rfl, rfl, rfl, hsz, ?_⟩
  simp only [toList, size, hsz]
  obtain ⟨k, hk⟩ : ∃ k, wsub s.head s.tail = k + 1 :=
    ⟨wsub s.head s.tail - 1, by simp only [size] at hpos; omega⟩
  rw [hk]
  simp only [Nat.add_sub_cancel]
  rw [List.range_succ_eq_map, List.map_cons, List.map_map]
  congr 1
  apply List.map_congr_left
  intro i hi
  show s.buffer (idx C (s.tail + (i + 1))) = s.buffer (idx C ((s.tail + 1) % W + i))
  apply congrArg
  apply idx_eq_idx hC
  rw [mod_W_add_mod_C hC he]
  congr 1
  omega

/-- Repeatedly call `pop` (as a consumer drain loop would), collecting the
values of the successful calls; the fuel `n` bounds the number of calls. -/
def drain (o : α) : Nat → Ring α C → List α × Ring α C
  | 0, s => ([], s)
  | n + 1, s =>
    let r := pop s o
    if r.1 then
      let d := drain o n r.2.2
      (r.2.1 :: d.1, d.2)
    else
      ([], s)

/-- Draining a well-formed state with fuel equal to its size yields exactly
its logical contents and empties the buffer. -/
theorem drain_spec {f : Nat} (hC : C = 2 ^ f) (he : f ≤ 64) (o : α) :
    ∀ (n : Nat) (s : Ring α C), Inv s → size s = n →
      (drain o n s).1 = toList s ∧ size (drain o n s).2 = 0 := by
  intro n
  induction n with
  | zero =>
    intro s _ h0
    exact ⟨(toList_nil h0).symm, by simpa [drain] using h0⟩
  | succ n ih =>
    intro s hInv hsz
    obtain ⟨h1, h2, hle⟩ := hInv
    have hne : s.head ≠ s.tail := by
      intro h
      have h0 : size s = 0 := by
        simp only [size]; exact (wsub_eq_zero_iff h1 h2).mpr h
      omega
    obtain ⟨hp1, _, _, hpsz, hplist⟩ := pop_succ_toList hC he h1 h2 hne o
    have hInv2 : Inv (pop s o).2.2 := inv_pop s o ⟨h1, h2, hle⟩
    have hsz2 : size (pop s o).2.2 = n := by
      rw [hpsz, hsz]; omega
    obtain ⟨ihl, ihs⟩ := ih (pop s o).2.2 hInv2 hsz2
    constructor
    · show (drain o (n + 1) s).1 = toList s
      simp only [drain, hp1, if_true]
      rw [ihl, hplist]
    · show size (drain o (n + 1) s).2 = 0
      simp only [drain, hp1, if_true]
      exact ihs

/-- A producer/consumer script: each entry is one call to `push` (with the
value supplied) or one call to `pop`. -/
inductive Act (α : Type) where
  | doPush (v : α)
  | doPop

/-- Run a script left to right from a state, returning the final state, the
values whose `push` returned true (in order), and the values returned by the
successful `pop` calls (in order). -/
def run (o : α) : List (Act α) → Ring α C → Ring α C × List α × List α
  | [], s => (s, [], [])
  | Act.doPush v :: acts, s =>
    let r := push s v
    let t := run o acts r.2
    if r.1 then (t.1, v :: t.2.1, t.2.2) else t
  | Act.doPop :: acts, s =>
    let r := pop s o
    let t := run o acts r.2.2
    if r.1 then (t.1, t.2.1, r.2.1 :: t.2.2) else t

/-- Core FIFO invariant: after any script, the values popped so far followed
by the values still live in the buffer are exactly the initial contents
followed by the successfully pushed values, in order. -/
theorem run_spec {f : Nat} (hC : C = 2 ^ f) (he : f < 64) (o : α) :
    ∀ (acts : List (Act α)) (s : Ring α C), Inv s →
      Inv (run o acts s).1 ∧
      (run o acts s).2.2 ++ toList (run o acts s).1 = toList s ++ (run o acts s).2.1 := by
  intro acts
  induction acts with
  | nil =>
    intro s h
    simpa [run] using h
  | cons a acts ih =>
    intro s hInv
    cases a with
    | doPush v =>
      by_cases hf : C ≤ wsub s.head s.tail
      · have hr : push s v = (false, s) := push_full v hf
        simp only [run, hr]
        simpa using ih s hInv
      · obtain ⟨h1, h2, hle⟩ := hInv
        have hlt : wsub s.head s.tail < C := Nat.not_le.mp hf
        obtain ⟨hp1, _, _, hplist⟩ := push_succ_toList hC he h1 h2 hlt v
        have hInv2 := inv_push s v ⟨h1, h2, hle⟩
        obtain ⟨ih1, ih2⟩ := ih (push s v).2 hInv2
        simp only [run, hp1, if_true]
        refine ⟨ih1, ?_⟩
        rw [ih2, hplist, List.append_assoc]
        rfl
    | doPop =>
      by_cases hne : s.head = s.tail
      · have hr : pop s o = (false, o, s) := pop_empty o hne
        simp only [run, hr]
        simpa using ih s hInv
      · obtain ⟨h1, h2, hle⟩ := hInv
        obtain ⟨hp1, _, _, _, hplist⟩ :=
          pop_succ_toList hC (Nat.le_of_lt he) h1 h2 hne o
        have hInv2 := inv_pop s o ⟨h1, h2, hle⟩
        obtain ⟨ih1, ih2⟩ := ih (pop s o).2.2 hInv2
        simp only [run, hp1, if_true]
        refine ⟨ih1, ?_⟩
        rw [List.cons_append, ih2, hplist]
        rfl

/-- Lemma: `remove` drops the removed elements from the front of the logical
contents and leaves the remaining ones in their original relative order. -/
theorem remove_toList {f : Nat} (hC : C = 2 ^ f) (he : f ≤ 64) {s : Ring α C}
    (h2 : s.tail < W) (n : Nat) :
    toList (remove s n).2 = (toList s).drop (min n (size s)) := by
  simp only [size]
  by_cases hz : min n (wsub s.head s.tail) = 0
  · rw [remove_zero_case hz, hz, List.drop_zero]
  · rw [remove_pos_case hz]
    have hm : min n (wsub s.head s.tail) ≤ wsub s.head s.tail :=
      Nat.min_le_right _ _
    have hsz : wsub s.head ((s.tail + min n (wsub s.head s.tail)) % W) =
        wsub s.head s.tail - min n (wsub s.head s.tail) :=
      wsub_add_right h2 hm
    apply List.ext_getElem
    · simp only [toList, size, hsz, List.length_drop, List.length_map,
        List.length_range]
    · intro i hi1 hi2
      simp only [toList, size, hsz] at hi1 hi2 ⊢
      simp only [List.getElem_drop, List.getElem_map, List.getElem_range]
      apply congrArg
      apply idx_eq_idx hC
      rw [mod_W_add_mod_C hC he]
      congr 1
      omega

/-- One call to `push_wait` (RingMaster.hh lines 259-302), modelled against
an explicit schedule: entry `i` of the schedule is the ring state observed
by the `i`-th push attempt (the consumer may advance `tail_` between
attempts, and a condition wait likewise ends with the next observed state).
The result is `none` when the schedule is exhausted before a push succeeds
(the real call would still be spinning or blocked); otherwise it is the
final values of the `spin_counter` and `block_counter` accumulators
together with the ring state left by the successful push.  `localSpins` is
the local accumulator `local_spins` of the source. -/
def pushWaitGo (v : α) (spin_limit : Nat) :
    List (Ring α C) → Nat → Nat → Nat → Option (Nat × Nat × Ring α C)
  | [], _, _, _ => none
  | s :: rest, localSpins, sc, bc =>
    let r := push s v
    if r.1 then
      some (if localSpins ≠ 0 then sc + localSpins else sc, bc, r.2)
    else
      if localSpins + 1 < spin_limit then
        pushWaitGo v spin_limit rest (localSpins + 1) sc bc
      else
        pushWaitGo v spin_limit rest 0 sc (bc + 1)

/-- Source operation `RingMaster::push_wait` entered with `local_spins = 0` and the caller's
counter values `sc` / `bc`. -/
def push_wait (v : α) (spin_limit : Nat) (sched : List (Ring α C))
    (sc bc : Nat) : Option (Nat × Nat × Ring α C) :=
  pushWaitGo v spin_limit sched 0 sc bc

/-- One call to `pop_wait` (RingMaster.hh lines 316-343), modelled like
`push_wait`; the successful result also carries the returned boolean and
the popped value. -/
def popWaitGo (o : α) (spin_limit : Nat) :
    List (Ring α C) → Nat → Nat → Nat → Option (Bool × α × Nat × Nat × Ring α C)
  | [], _, _, _ => none
  | s :: rest, localSpins, sc, bc =>
    let r := pop s o
    if r.1 then
      some (true, r.2.1, if localSpins ≠ 0 then sc + localSpins else sc, bc, r.2.2)
    else
      if localSpins + 1 < spin_limit then
        popWaitGo o spin_limit rest (localSpins + 1) sc bc
      else
        popWaitGo o spin_limit rest 0 sc (bc + 1)

/-- Source operation `RingMaster::pop_wait` entered with `local_spins = 0`. -/
def pop_wait (o : α) (spin_limit : Nat) (sched : List (Ring α C))
    (sc bc : Nat) : Option (Bool × α × Nat × Nat × Ring α C) :=
  popWaitGo o spin_limit sched 0 sc bc

/-- Number of transitions into the condition wait that `push_wait` makes on
a schedule: one each time the spin budget is exhausted, following the
control flow of the source loop. -/
def pushBlockEntries (v : α) (spin_limit : Nat) :
    List (Ring α C) → Nat → Nat
  | [], _ => 0
  | s :: rest, localSpins =>
    if (push s v).1 then 0
    else
      if localSpins + 1 < spin_limit then
        pushBlockEntries v spin_limit rest (localSpins + 1)
      else
        pushBlockEntries v spin_limit rest 0 + 1

/-- Number of transitions into the condition wait that `pop_wait` makes. -/
def popBlockEntries (o : α) (spin_limit : Nat) :
    List (Ring α C) → Nat → Nat
  | [], _ => 0
  | s :: rest, localSpins =>
    if (pop s o).1 then 0
    else
      if localSpins + 1 < spin_limit then
        popBlockEntries o spin_limit rest (localSpins + 1)
      else
        popBlockEntries o spin_limit rest 0 + 1

theorem pushWaitGo_blocks (v : α) (lim : Nat) :
    ∀ (sched : List (Ring α C)) (l sc bc sc' bc' : Nat) (sF : Ring α C),
      pushWaitGo v lim sched l sc bc = some (sc', bc', sF) →
      bc' = bc + pushBlockEntries v lim sched l := by
  intro sched
  induction sched with
  | nil =>
    intro l sc bc sc' bc' sF h
    simp [pushWaitGo] at h
  | cons s rest ih =>
    intro l sc bc sc' bc' sF h
    by_cases hp : (push s v).1 = true
    · simp only [pushWaitGo, hp, if_true, Option.some.injEq, Prod.mk.injEq] at h
      simp only [pushBlockEntries, hp, if_true]
      omega
    · have hf : (push s v).1 = false := by
        revert hp; cases (push s v).1 <;> simp
      simp only [pushWaitGo, hf, Bool.false_eq_true, if_false] at h
      simp only [pushBlockEntries, hf, Bool.false_eq_true, if_false]
      by_cases hl : l + 1 < lim
      · rw [if_pos hl] at h ⊢
        exact ih _ _ _ _ _ _ h
      · rw [if_neg hl] at h ⊢
        have := ih _ _ _ _ _ _ h
        omega

theorem pushWaitGo_spin_src (v : α) (lim : Nat) (sched : List (Ring α C))
    (l sc bc sc' bc' : Nat) (sF : Ring α C)
    (h : pushWaitGo v lim sched l sc bc = some (sc', bc', sF))
    (hne : sc' ≠ sc) : l ≠ 0 ∨ ∃ s ∈ sched, (push s v).1 = false := by
  cases sched with
  | nil => simp [pushWaitGo] at h
  | cons s rest =>
    by_cases hp : (push s v).1 = true
    · simp only [pushWaitGo, hp, if_true, Option.some.injEq, Prod.mk.injEq] at h
      obtain ⟨h1, -, -⟩ := h
      left
      intro hl0
      subst hl0
      simp at h1
      exact hne h1.symm
    · have hf : (push s v).1 = false := by
        revert hp; cases (push s v).1 <;> simp
      exact Or.inr ⟨s, List.mem_cons_self s rest, hf⟩

theorem pushWaitGo_immediate (v : α) (lim : Nat) (s : Ring α C)
    (rest : List (Ring α C)) (sc bc : Nat) (hp : (push s v).1 = true) :
    push_wait v lim (s :: rest) sc bc = some (sc, bc, (push s v).2) := by
  simp [push_wait, pushWaitGo, hp]

theorem pushWaitGo_isSome (v : α) (lim : Nat) :
    ∀ (sched : List (Ring α C)) (l sc bc : Nat),
      (∃ s ∈ sched, wsub s.head s.tail < C) →
      (pushWaitGo v lim sched l sc bc).isSome = true := by
  intro sched
  induction sched with
  | nil =>
    intro l sc bc h
    simp at h
  | cons s rest ih =>
    intro l sc bc h
    by_cases hp : (push s v).1 = true
    · simp [pushWaitGo, hp]
    · have hf : (push s v).1 = false := by
        revert hp; cases (push s v).1 <;> simp
      have hg : C ≤ wsub s.head s.tail := by
        by_contra hc
        rw [push_ok v hc] at hf
        simp at hf
      obtain ⟨w, hw, hwlt⟩ := h
      rcases List.mem_cons.mp hw with rfl | hwr
      · omega
      · simp only [pushWaitGo, hf, Bool.false_eq_true, if_false]
        by_cases hl : l + 1 < lim
        · rw [if_pos hl]
          exact ih _ sc bc ⟨w, hwr, hwlt⟩
        · rw [if_neg hl]
          exact ih _ sc (bc + 1) ⟨w, hwr, hwlt⟩

theorem pushWaitGo_pushed (v : α) (lim : Nat) :
    ∀ (sched : List (Ring α C)) (l sc bc sc' bc' : Nat) (sF : Ring α C),
      pushWaitGo v lim sched l sc bc = some (sc', bc', sF) →
      ∃ s ∈ sched, (push s v).1 = true ∧ sF = (push s v).2 := by
  intro sched
  induction sched with
  | nil =>
    intro l sc bc sc' bc' sF h
    simp [pushWaitGo] at h
  | cons s rest ih =>
    intro l sc bc sc' bc' sF h
    by_cases hp : (push s v).1 = true
    · simp only [pushWaitGo, hp, if_true, Option.some.injEq, Prod.mk.injEq] at h
      exact ⟨s, List.mem_cons_self s rest, hp, h.2.2.symm⟩
    · have hf : (push s v).1 = false := by
        revert hp; cases (push s v).1 <;> simp
      simp only [pushWaitGo, hf, Bool.false_eq_true, if_false] at h
      by_cases hl : l + 1 < lim
      · rw [if_pos hl] at h
        obtain ⟨w, hw, hres⟩ := ih _ _ _ _ _ _ h
        exact ⟨w, List.mem_cons_of_mem s hw, hres⟩
      · rw [if_neg hl] at h
        obtain ⟨w, hw, hres⟩ := ih _ _ _ _ _ _ h
        exact ⟨w, List.mem_cons_of_mem s hw, hres⟩

theorem popWaitGo_blocks (o : α) (lim : Nat) :
    ∀ (sched : List (Ring α C)) (l sc bc : Nat) (b : Bool) (w : α)
      (sc' bc' : Nat) (sF : Ring α C),
      popWaitGo o lim sched l sc bc = some (b, w, sc', bc', sF) →
      bc' = bc + popBlockEntries o lim sched l := by
  intro sched
  induction sched with
  | nil =>
    intro l sc bc b w sc' bc' sF h
    simp [popWaitGo] at h
  | cons s rest ih =>
    intro l sc bc b w sc' bc' sF h
    by_cases hp : (pop s o).1 = true
    · simp only [popWaitGo, hp, if_true, Option.some.injEq, Prod.mk.injEq] at h
      simp only [popBlockEntries, hp, if_true]
      omega
    · have hf : (pop s o).1 = false := by
        revert hp; cases (pop s o).1 <;> simp
      simp only [popWaitGo, hf, Bool.false_eq_true, if_false] at h
      simp only [popBlockEntries, hf, Bool.false_eq_true, if_false]
      by_cases hl : l + 1 < lim
      · rw [if_pos hl] at h ⊢
        exact ih _ _ _ _ _ _ _ _ h
      · rw [if_neg hl] at h ⊢
        have := ih _ _ _ _ _ _ _ _ h
        omega

theorem popWaitGo_spin_src (o : α) (lim : Nat) (sched : List (Ring α C))
    (l sc bc : Nat) (b : Bool) (w : α) (sc' bc' : Nat) (sF : Ring α C)
    (h : popWaitGo o lim sched l sc bc = some (b, w, sc', bc', sF))
    (hne : sc' ≠ sc) : l ≠ 0 ∨ ∃ s ∈ sched, (pop s o).1 = false := by
  cases sched with
  | nil => simp [popWaitGo] at h
  | cons s rest =>
    by_cases hp : (pop s o).1 = true
    · simp only [popWaitGo, hp, if_true, Option.some.injEq, Prod.mk.injEq] at h
      obtain ⟨-, -, h1, -, -⟩ := h
      left
      intro hl0
      subst hl0
      simp at h1
      exact hne h1.symm
    · have hf : (pop s o).1 = false := by
        revert hp; cases (pop s o).1 <;> simp
      exact Or.inr ⟨s, List.mem_cons_self s rest, hf⟩

theorem popWaitGo_immediate (o : α) (lim : Nat) (s : Ring α C)
    (rest : List (Ring α C)) (sc bc : Nat) (hp : (pop s o).1 = true) :
    pop_wait o lim (s :: rest) sc bc =
      some (true, (pop s o).2.1, sc, bc, (pop s o).2.2) := by
  simp [pop_wait, popWaitGo, hp]

theorem popWaitGo_isSome (o : α) (lim : Nat) :
    ∀ (sched : List (Ring α C)) (l sc bc : Nat),
      (∃ s ∈ sched, s.head ≠ s.tail) →
      (popWaitGo o lim sched l sc bc).isSome = true := by
  intro sched
  induction sched with
  | nil =>
    intro l sc bc h
    simp at h
  | cons s rest ih =>
    intro l sc bc h
    by_cases hp : (pop s o).1 = true
    · simp [popWaitGo, hp]
    · have hf : (pop s o).1 = false := by
        revert hp; cases (pop s o).1 <;> simp
      have hg : s.head = s.tail := by
        by_contra hc
        rw [pop_ok o hc] at hf
        simp at hf
      obtain ⟨w, hw, hwne⟩ := h
      rcases List.mem_cons.mp hw with rfl | hwr
      · exact absurd hg hwne
      · simp only [popWaitGo, hf, Bool.false_eq_true, if_false]
        by_cases hl : l + 1 < lim
        · rw [if_pos hl]
          exact ih _ sc bc ⟨w, hwr, hwne⟩
        · rw [if_neg hl]
          exact ih _ sc (bc + 1) ⟨w, hwr, hwne⟩

theorem popWaitGo_true (o : α) (lim : Nat) :
    ∀ (sched : List (Ring α C)) (l sc bc : Nat) (b : Bool) (w : α)
      (sc' bc' : Nat) (sF : Ring α C),
      popWaitGo o lim sched l sc bc = some (b, w, sc', bc', sF) → b = true := by
  intro sched
  induction sched with
  | nil =>
    intro l sc bc b w sc' bc' sF h
    simp [popWaitGo] at h
  | cons s rest ih =>
    intro l sc bc b w sc' bc' sF h
    by_cases hp : (pop s o).1 = true
    · simp only [popWaitGo, hp, if_true, Option.some.injEq, Prod.mk.injEq] at h
      exact h.1.symm
    · have hf : (pop s o).1 = false := by
        revert hp; cases (pop s o).1 <;> simp
      simp only [popWaitGo, hf, Bool.false_eq_true, if_false] at h
      by_cases hl : l + 1 < lim
      · rw [if_pos hl] at h
        exact ih _ _ _ _ _ _ _ _ h
      · rw [if_neg hl] at h
        exact ih _ _ _ _ _ _ _ _ h

theorem remove_spec_parts (s : Ring α C) (n : Nat) (h2 : s.tail < W) :
    (remove s n).1 = min n (size s) ∧
    (remove s n).2.head = s.head ∧
    (remove s n).2.buffer = s.buffer ∧
    (remove s n).2.tail = (s.tail + min n (size s)) % W := by
  by_cases hz : min n (wsub s.head s.tail) = 0
  · rw [remove_zero_case hz]
    refine ⟨?_, rfl, rfl, ?_⟩
    · simp only [size]
      omega
    · simp only [size]
      rw [hz, Nat.add_zero, Nat.mod_eq_of_lt h2]
  · rw [remove_pos_case hz]
    exact ⟨by simp [size], rfl, rfl, by simp [size]⟩

/-- C1 — FIFO correctness: running any script of `push` and `pop` calls
from the freshly constructed buffer, the values returned by the successful
pops followed by the values still held in the buffer are exactly the
successfully pushed values in push order; in particular once the buffer has
been drained the popped sequence equals the accepted sequence — no loss,
duplication, or reordering. -/
theorem C1_fifo_correct {f : Nat} (hC : C = 2 ^ f) (he : f < 64)
    (b : Fin C → α) (o : α) (acts : List (Act α)) :
    (run o acts ⟨0, 0, b⟩).2.2 ++ toList (run o acts ⟨0, 0, b⟩).1 =
      (run o acts ⟨0, 0, b⟩).2.1 ∧
    (toList (run o acts ⟨0, 0, b⟩).1 = [] →
      (run o acts ⟨0, 0, b⟩).2.2 = (run o acts ⟨0, 0, b⟩).2.1) := by
  have h := (run_spec hC he o acts ⟨0, 0, b⟩ (inv_init b)).2
  rw [toList_nil (s := ⟨0, 0, b⟩) (wsub_self 0), List.nil_append] at h
  refine ⟨h, fun hnil => ?_⟩
  rw [hnil, List.append_nil] at h
  exact h

/-- C2 — capacity bound: every state reachable from the initial state by
`push`, `pop`, `remove` and `clear` satisfies `head - tail ≤ Capacity`
(the difference is a `size_t` value, hence also nonnegative), and `isFull`
returns true exactly when `head - tail = Capacity`. -/
theorem C2_capacity_bound {s : Ring α C} (h : Reachable s) :
    size s ≤ C ∧ (isFull s = true ↔ size s = C) := by
  obtain ⟨-, -, h3⟩ := reachable_inv h
  refine ⟨h3, ?_⟩
  simp only [isFull, decide_eq_true_eq, size] at h3 ⊢
  omega

/-- C3 — failure atomicity: on a full buffer `push` returns false and
leaves the whole state (cursors, slots, hence `size`) unchanged; on an
empty buffer `pop` returns false, hands back the caller's `out` value
unchanged, changes nothing, and `size` stays 0. -/
theorem C3_failure_atomicity (s : Ring α C) (v o : α) :
    (C ≤ wsub s.head s.tail → push s v = (false, s)) ∧
    (s.head = s.tail → pop s o = (false, o, s) ∧ size s = 0) := by
  refine ⟨fun hf => push_full v hf, fun he => ⟨pop_empty o he, ?_⟩⟩
  simp [size, he, wsub_self]

/-- C4 — remove semantics: on a well-formed state holding `size s`
elements, `remove n` returns `min n (size s)`, advances the consumer
cursor by exactly that amount, leaves the producer cursor and every slot
untouched, and a subsequent drain via `pop` yields exactly the remaining
elements in their original relative order. -/
theorem C4_remove_semantics {f : Nat} (hC : C = 2 ^ f) (he : f ≤ 64)
    {s : Ring α C} (hInv : Inv s) (n : Nat) (o : α) :
    (remove s n).1 = min n (size s) ∧
    (remove s n).2.head = s.head ∧
    (remove s n).2.buffer = s.buffer ∧
    (remove s n).2.tail = (s.tail + min n (size s)) % W ∧
    size (remove s n).2 = size s - min n (size s) ∧
    (drain o (size (remove s n).2) (remove s n).2).1 =
      (toList s).drop (min n (size s)) := by
  obtain ⟨h1, h2, h3⟩ := hInv
  obtain ⟨hr1, hrh, hrb, hrt⟩ := remove_spec_parts s n h2
  have hm : min n (size s) ≤ wsub s.head s.tail := by
    simp only [size]
    exact Nat.min_le_right _ _
  have hsize : size (remove s n).2 = size s - min n (size s) := by
    show wsub (remove s n).2.head (remove s n).2.tail = _
    rw [hrh, hrt]
    simp only [size]
    exact wsub_add_right h2 hm
  have hIr : Inv (remove s n).2 := inv_remove s n ⟨h1, h2, h3⟩
  have hdr := (drain_spec hC he o (size (remove s n).2) (remove s n).2 hIr rfl).1
  have htl := remove_toList hC he h2 n
  exact ⟨hr1, hrh, hrb, hrt, hsize, by rw [hdr, htl]⟩

/-- The capacity-8 scenario of the spec, step by step: the empty buffer. -/
def c5s0 : Ring Nat 8 := ⟨0, 0, fun _ => 0⟩

/-- Scenario state after `push(0)`. -/
def c5s1 : Ring Nat 8 := (push c5s0 0).2

/-- Scenario state after `push(1)`. -/
def c5s2 : Ring Nat 8 := (push c5s1 1).2

/-- Scenario state after `push(2)`. -/
def c5s3 : Ring Nat 8 := (push c5s2 2).2

/-- Scenario state after `push(3)`. -/
def c5s4 : Ring Nat 8 := (push c5s3 3).2

/-- Scenario state after `push(4)`. -/
def c5s5 : Ring Nat 8 := (push c5s4 4).2

/-- Scenario state after `push(5)`. -/
def c5s6 : Ring Nat 8 := (push c5s5 5).2

/-- Scenario state after `push(6)`. -/
def c5s7 : Ring Nat 8 := (push c5s6 6).2

/-- Scenario state after `push(7)`: the buffer is full. -/
def c5s8 : Ring Nat 8 := (push c5s7 7).2

/-- Scenario state after the first `pop()`. -/
def c5s9 : Ring Nat 8 := (pop c5s8 0).2.2

/-- Scenario state after the now-successful `push(8)`. -/
def c5s10 : Ring Nat 8 := (push c5s9 8).2

/-- C5 — concrete scenario at capacity 8: `push(0)` through `push(7)` all
return true; `push(8)` then returns false with `size() = 8`; `pop` then
returns true yielding 0 with `size() = 7`; `push(8)` then returns true;
and the following eight pops return 1, 2, 3, 4, 5, 6, 7, 8 in order. -/
theorem C5_concrete_scenario :
    (push c5s0 0).1 = true ∧ (push c5s1 1).1 = true ∧ (push c5s2 2).1 = true ∧
    (push c5s3 3).1 = true ∧ (push c5s4 4).1 = true ∧ (push c5s5 5).1 = true ∧
    (push c5s6 6).1 = true ∧ (push c5s7 7).1 = true ∧
    (push c5s8 8).1 = false ∧ size c5s8 = 8 ∧
    (pop c5s8 0).1 = true ∧ (pop c5s8 0).2.1 = 0 ∧ size c5s9 = 7 ∧
    (push c5s9 8).1 = true ∧
    (drain 0 8 c5s10).1 = [1, 2, 3, 4, 5, 6, 7, 8] := by
  decide

/-- C7 — observability counters: for any call to `push_wait` or `pop_wait`,
the spin counter is unchanged on an immediately successful push/pop and can
increase only when at least one underlying attempt failed, and the block
counter is increased by exactly one for each transition into a
condition-variable wait. -/
theorem C7_observability_counters (v o : α) (lim : Nat)
    (sched : List (Ring α C)) (sc bc : Nat) :
    (∀ s rest, sched = s :: rest → (push s v).1 = true →
        push_wait v lim sched sc bc = some (sc, bc, (push s v).2)) ∧
    (∀ sc' bc' sF, push_wait v lim sched sc bc = some (sc', bc', sF) →
        (sc' ≠ sc → ∃ s ∈ sched, (push s v).1 = false) ∧
        bc' = bc + pushBlockEntries v lim sched 0) ∧
    (∀ s rest, sched = s :: rest → (pop s o).1 = true →
        pop_wait o lim sched sc bc =
          some (true, (pop s o).2.1, sc, bc, (pop s o).2.2)) ∧
    (∀ b w sc' bc' sF, pop_wait o lim sched sc bc = some (b, w, sc', bc', sF) →
        (sc' ≠ sc → ∃ s ∈ sched, (pop s o).1 = false) ∧
        bc' = bc + popBlockEntries o lim sched 0) := by
  refine ⟨?_, ?_, ?_, ?_⟩
  · intro s rest hs hp
    subst hs
    exact pushWaitGo_immediate v lim s rest sc bc hp
  · intro sc' bc' sF h
    refine ⟨fun hne => ?_, pushWaitGo_blocks v lim sched 0 sc bc sc' bc' sF h⟩
    rcases pushWaitGo_spin_src v lim sched 0 sc bc sc' bc' sF h hne with h0 | hex
    · exact absurd rfl h0
    · exact hex
  · intro s rest hs hp
    subst hs
    exact popWaitGo_immediate o lim s rest sc bc hp
  · intro b w sc' bc' sF h
    refine ⟨fun hne => ?_, popWaitGo_blocks o lim sched 0 sc bc b w sc' bc' sF h⟩
    rcases popWaitGo_spin_src o lim sched 0 sc bc b w sc' bc' sF h hne with h0 | hex
    · exact absurd rfl h0
    · exact hex

/-- C8 — the wait layer never reports failure: whenever `pop_wait` returns
it returns true; whenever `push_wait` returns, the value has actually been
pushed by a successful underlying `push`; and both calls do return whenever
the schedule of observed states contains a ready (non-full respectively
non-empty) state — they retry until the underlying operation succeeds. -/
theorem C8_wait_never_fails (v o : α) (lim : Nat)
    (sched : List (Ring α C)) (sc bc : Nat) :
    (∀ b w sc' bc' sF, pop_wait o lim sched sc bc = some (b, w, sc', bc', sF) →
        b = true) ∧
    ((∃ s ∈ sched, wsub s.head s.tail < C) →
        (push_wait v lim sched sc bc).isSome = true) ∧
    ((∃ s ∈ sched, s.head ≠ s.tail) →
        (pop_wait o lim sched sc bc).isSome = true) ∧
    (∀ sc' bc' sF, push_wait v lim sched sc bc = some (sc', bc', sF) →
        ∃ s ∈ sched, (push s v).1 = true ∧ sF = (push s v).2) := by
  refine ⟨?_, ?_, ?_, ?_⟩
  · intro b w sc' bc' sF h
    exact popWaitGo_true o lim sched 0 sc bc b w sc' bc' sF h
  · intro hex
    exact pushWaitGo_isSome v lim sched 0 sc bc hex
  · intro hex
    exact popWaitGo_isSome o lim sched 0 sc bc hex
  · intro sc' bc' sF h
    exact pushWaitGo_pushed v lim sched 0 sc bc sc' bc' sF h

/-- C6 — clear frame effect: `clear` stores zero into both cursors and
nothing else, so afterwards `size` is 0 and `isEmpty` holds, while the
storage array is untouched — previously stored elements remain physically
present in the slots. -/
theorem C6_clear_frame (s : Ring α C) :
    clear s = ⟨0, 0, s.buffer⟩ ∧
    (clear s).buffer = s.buffer ∧
    size (clear s) = 0 ∧
    isEmpty (clear s) = true := by
  exact ⟨rfl, rfl, wsub_self 0, rfl⟩

/-- C9 — consistency of the status queries: on any state with genuine
`size_t` cursors, `isEmpty` holds exactly when `size` is 0 and `isFull`
holds exactly when `size ≥ Capacity`; all three read the same
`head - tail` difference and mutate nothing. -/
theorem C9_status_consistency (s : Ring α C) (h1 : s.head < W) (h2 : s.tail < W) :
    (isEmpty s = true ↔ size s = 0) ∧ (isFull s = true ↔ C ≤ size s) := by
  constructor
  · simp only [isEmpty, decide_eq_true_eq, size]
    exact (wsub_eq_zero_iff h1 h2).symm
  · simp only [isFull, decide_eq_true_eq, size]

/-- C10 — remove no-op edge cases: `remove 0` returns 0 and changes
nothing, and `remove n` on an empty buffer returns 0 and changes nothing:
no store to the consumer cursor happens when the computed removal count is
zero. -/
theorem C10_remove_noop (s : Ring α C) (n : Nat) :
    remove s 0 = (0, s) ∧ (s.head = s.tail → remove s n = (0, s)) := by
  constructor
  · apply remove_zero_case
    simp
  · intro he
    apply remove_zero_case
    rw [he, wsub_self]
    simp

/-- Concrete interleaved script used to witness C1. -/
def c1acts : List (Act Nat) :=
  [Act.doPush 5, Act.doPush 6, Act.doPush 7, Act.doPop, Act.doPush 7,
    Act.doPop, Act.doPop]

/-- Freshly constructed capacity-2 buffer used to witness C1. -/
def c1s0 : Ring Nat 2 := ⟨0, 0, fun _ => 0⟩

/-- C1 witness: the FIFO theorem applied to a concrete capacity-2 run. -/
theorem C1_fifo_correct_witness :
    (run 0 c1acts c1s0).2.2 ++ toList (run 0 c1acts c1s0).1 =
      (run 0 c1acts c1s0).2.1 ∧
    (toList (run 0 c1acts c1s0).1 = [] →
      (run 0 c1acts c1s0).2.2 = (run 0 c1acts c1s0).2.1) :=
  C1_fifo_correct (f := 1) (by decide) (by decide) (fun _ => 0) 0 c1acts

/-- C2 witness: the capacity bound at the reachable state obtained by one
push from the initial capacity-8 buffer. -/
theorem C2_capacity_bound_witness :
    size (push (⟨0, 0, fun _ => 0⟩ : Ring Nat 8) 3).2 ≤ 8 ∧
    (isFull (push (⟨0, 0, fun _ => 0⟩ : Ring Nat 8) 3).2 = true ↔
      size (push (⟨0, 0, fun _ => 0⟩ : Ring Nat 8) 3).2 = 8) :=
  C2_capacity_bound
    (Reachable.step_push ⟨0, 0, fun _ => 0⟩ 3 (Reachable.init (fun _ => 0)))

/-- C3 witness: a full capacity-8 buffer rejects `push` unchanged, an empty
one rejects `pop` unchanged. -/
theorem C3_failure_atomicity_witness :
    push (⟨8, 0, fun _ => 0⟩ : Ring Nat 8) 9 = (false, ⟨8, 0, fun _ => 0⟩) ∧
    (pop (⟨3, 3, fun _ => 0⟩ : Ring Nat 8) 7 = (false, 7, ⟨3, 3, fun _ => 0⟩) ∧
      size (⟨3, 3, fun _ => 0⟩ : Ring Nat 8) = 0) :=
  ⟨(C3_failure_atomicity (⟨8, 0, fun _ => 0⟩ : Ring Nat 8) 9 7).1 (by decide),
    (C3_failure_atomicity (⟨3, 3, fun _ => 0⟩ : Ring Nat 8) 9 7).2 rfl⟩

/-- Capacity-8 state with three live elements used to witness C4. -/
def c4s : Ring Nat 8 := ⟨5, 2, fun _ => 0⟩

/-- C4 witness: `remove 2` on a 3-element capacity-8 buffer. -/
theorem C4_remove_semantics_witness :
    (remove c4s 2).1 = min 2 (size c4s) ∧
    (remove c4s 2).2.head = c4s.head ∧
    (remove c4s 2).2.buffer = c4s.buffer ∧
    (remove c4s 2).2.tail = (c4s.tail + min 2 (size c4s)) % W ∧
    size (remove c4s 2).2 = size c4s - min 2 (size c4s) ∧
    (drain 0 (size (remove c4s 2).2) (remove c4s 2).2).1 =
      (toList c4s).drop (min 2 (size c4s)) :=
  C4_remove_semantics (f := 3) (by decide) (by decide)
    ⟨by decide, by decide, by decide⟩ 2 0

/-- C6 witness: clearing a concrete nonempty capacity-8 buffer. -/
theorem C6_clear_frame_witness :
    clear (⟨5, 3, fun _ => 9⟩ : Ring Nat 8) =
      ⟨0, 0, (⟨5, 3, fun _ => 9⟩ : Ring Nat 8).buffer⟩ ∧
    (clear (⟨5, 3, fun _ => 9⟩ : Ring Nat 8)).buffer =
      (⟨5, 3, fun _ => 9⟩ : Ring Nat 8).buffer ∧
    size (clear (⟨5, 3, fun _ => 9⟩ : Ring Nat 8)) = 0 ∧
    isEmpty (clear (⟨5, 3, fun _ => 9⟩ : Ring Nat 8)) = true :=
  C6_clear_frame (⟨5, 3, fun _ => 9⟩ : Ring Nat 8)

/-- C7 witness: an immediately successful `push_wait` leaves both counters
untouched, and the block counter equals the count of wait transitions. -/
theorem C7_observability_counters_witness :
    push_wait (5 : Nat) 2 [(⟨0, 0, fun _ => 0⟩ : Ring Nat 8)] 10 20 =
      some (10, 20, (push (⟨0, 0, fun _ => 0⟩ : Ring Nat 8) 5).2) ∧
    (20 : Nat) = 20 +
      pushBlockEntries (5 : Nat) 2 [(⟨0, 0, fun _ => 0⟩ : Ring Nat 8)] 0 := by
  have h := C7_observability_counters (5 : Nat) (0 : Nat) 2
    [(⟨0, 0, fun _ => 0⟩ : Ring Nat 8)] 10 20
  have h1 := h.1 (⟨0, 0, fun _ => 0⟩ : Ring Nat 8) [] rfl (by decide)
  exact ⟨h1, (h.2.1 10 20 (push (⟨0, 0, fun _ => 0⟩ : Ring Nat 8) 5).2 h1).2⟩

/-- C8 witness: on schedules that eventually present a ready state, both
wait calls return. -/
theorem C8_wait_never_fails_witness :
    (push_wait (42 : Nat) 1
        [(⟨8, 0, fun _ => 0⟩ : Ring Nat 8), ⟨8, 1, fun _ => 0⟩] 0 0).isSome = true ∧
    (pop_wait (0 : Nat) 1
        [(⟨3, 3, fun _ => 0⟩ : Ring Nat 8), ⟨4, 3, fun _ => 0⟩] 0 0).isSome = true := by
  have h1 := C8_wait_never_fails (42 : Nat) (0 : Nat) 1
    [(⟨8, 0, fun _ => 0⟩ : Ring Nat 8), ⟨8, 1, fun _ => 0⟩] 0 0
  have h2 := C8_wait_never_fails (42 : Nat) (0 : Nat) 1
    [(⟨3, 3, fun _ => 0⟩ : Ring Nat 8), ⟨4, 3, fun _ => 0⟩] 0 0
  exact ⟨h1.2.1 ⟨⟨8, 1, fun _ => 0⟩, by simp, by decide⟩,
    h2.2.2.1 ⟨⟨4, 3, fun _ => 0⟩, by simp, by decide⟩⟩

/-- C9 witness: the status queries agree on a concrete empty state. -/
theorem C9_status_consistency_witness :
    (isEmpty (⟨2, 2, fun _ => 0⟩ : Ring Nat 8) = true ↔
      size (⟨2, 2, fun _ => 0⟩ : Ring Nat 8) = 0) ∧
    (isFull (⟨2, 2, fun _ => 0⟩ : Ring Nat 8) = true ↔
      8 ≤ size (⟨2, 2, fun _ => 0⟩ : Ring Nat 8)) :=
  C9_status_consistency (⟨2, 2, fun _ => 0⟩ : Ring Nat 8) (by decide) (by decide)

/-- C10 witness: `remove 0` and `remove 3` on a concrete empty state. -/
theorem C10_remove_noop_witness :
    remove (⟨4, 4, fun _ => 0⟩ : Ring Nat 8) 0 = (0, ⟨4, 4, fun _ => 0⟩) ∧
    remove (⟨4, 4, fun _ => 0⟩ : Ring Nat 8) 3 = (0, ⟨4, 4, fun _ => 0⟩) :=
  ⟨(C10_remove_noop (⟨4, 4, fun _ => 0⟩ : Ring Nat 8) 3).1,
    (C10_remove_noop (⟨4, 4, fun _ => 0⟩ : Ring Nat 8) 3).2 rfl⟩

end RingMaster
